import Mathlib

/-!
Verification development for the template-filtering engine of `filterdump.py`.

We shallowly embed the program's data model and operations:

* Python strings are `String` (lists of characters via `String.data`);
  `str.strip` is `stripChars`, `str.startswith` is `pyStartsWith`,
  `s[0].upper() + s[1:]` is done on the character list with `Char.toUpper`.
* Python dicts keyed by strings are association lists with first-match
  lookup (`alookup`) and overwrite-or-append insertion (`insertA`,
  `insertCache`); the keys are kept unique by construction.
* The wikitext parser (`mwparserfromhell`) is an external collaborator:
  a parsed page body is modelled by the list of template-invocation
  names it yields, in document order (`Page.invocations`).
* A Python run that raises an uncaught exception is `PyRes.exc`;
  a normal return of `a` is `PyRes.ok a`.
* The recursive resolver `is_filtered` / `_is_filtered` threads the
  module-level cache and active set explicitly (`RState`).  Recursion
  is implemented with fuel (`isFilteredF`); `is_filtered` instantiates
  the fuel at the bound `BIGF`, and the stability theorems below show
  the result is independent of the fuel beyond that bound, so the
  embedding computes exactly the (terminating) Python recursion.
-/

/-- Whitespace test used by `str.strip`, restricted to the ASCII range
supported by `Char.isWhitespace`. -/
def wsp (c : Char) : Bool := c.isWhitespace

/-- Model of Python `str.strip()` on a character list: drop whitespace
from the front, then from the back. -/
def stripChars (l : List Char) : List Char :=
  (((l.dropWhile wsp).reverse).dropWhile wsp).reverse

/-- Model of Python `s.startswith(p)`. -/
def pyStartsWith (s p : String) : Bool := p.data.isPrefixOf s.data

/-- Model of Python `s[n:]` (drop the first `n` characters). -/
def pyDropChars (s : String) (n : Nat) : String := String.mk (s.data.drop n)

/-- One `namespace` entry of the `siteinfo` element (attributes `case`
and the element text, the namespace's human-readable name). -/
structure NamespaceInfo where
  nscase : String
  nsname : String
deriving DecidableEq

/-- `SiteInfo`: dbname, base url and the numeric-key-indexed namespace
table, as parsed from the `siteinfo` element. -/
structure SiteInfo where
  dbname : String
  urlbase : String
  namespaces : List (String × NamespaceInfo)
deriving DecidableEq

/-- A page record: title, optional redirect target, raw wikitext, and
the list of template-invocation names that the external parser yields
for the text (model of `mwparserfromhell.parse(text).filter_templates()`,
names in document order). -/
structure Page where
  title : String
  redirect : Option String
  text : String
  invocations : List String
deriving DecidableEq

/-- First-match association-list lookup (Python dict read `m[k]`,
keys unique by construction). -/
def alookup {β : Type} : List (String × β) → String → Option β
  | [], _ => none
  | (k, v) :: r, key => if k = key then some v else alookup r key

/-- Python dict write `m[k] = v`: overwrite the entry if the key is
present, otherwise append it. -/
def insertA {β : Type} (m : List (String × β)) (k : String) (v : β) :
    List (String × β) :=
  if (alookup m k).isSome then
    m.map (fun p => if p.1 = k then (k, v) else p)
  else
    m ++ [(k, v)]

/-- `siteinfo.template_namespace_name()`: namespace name under the
MediaWiki magic key "10"; `none` models the Python `KeyError`. -/
def SiteInfo.template_namespace_name (si : SiteInfo) : Option String :=
  (alookup si.namespaces "10").map (fun n => n.nsname)

/-- `siteinfo.module_namespace_name()`: namespace name under the
MediaWiki magic key "828". -/
def SiteInfo.module_namespace_name (si : SiteInfo) : Option String :=
  (alookup si.namespaces "828").map (fun n => n.nsname)

/-- The blocklist `FILTERED_TEMPLATE_PREFIXES` from the source. -/
def FILTERED_TEMPLATE_PREFIXES : List String :=
  ["Infobox", "Navbox", "Tietolaatikko"]

/-- The fixed `MAGIC_WORDS` set from the source, as a list. -/
def MAGIC_WORDS : List String :=
  ["CURRENTYEAR", "CURRENTMONTH", "CURRENTMONTH1", "CURRENTMONTHNAME",
   "CURRENTMONTHNAMEGEN", "CURRENTMONTHABBREV", "CURRENTDAY", "CURRENTDAY2",
   "CURRENTDOW", "CURRENTDAYNAME", "CURRENTTIME", "CURRENTHOUR",
   "CURRENTWEEK", "CURRENTTIMESTAMP", "LOCALYEAR", "LOCALMONTH",
   "LOCALMONTH1", "LOCALMONTHNAME", "LOCALMONTHNAMEGEN", "LOCALMONTHABBREV",
   "LOCALDAY", "LOCALDAY2", "LOCALDOW", "LOCALDAYNAME", "LOCALTIME",
   "LOCALHOUR", "LOCALWEEK", "LOCALTIMESTAMP", "SITENAME", "SERVER",
   "SERVERNAME", "DIRMARK", "DIRECTIONMARK", "SCRIPTPATH", "STYLEPATH",
   "CURRENTVERSION", "CONTENTLANGUAGE", "CONTENTLANG", "PAGEID",
   "PAGELANGUAGE", "CASCADINGSOURCES", "REVISIONID", "REVISIONDAY",
   "REVISIONDAY2", "REVISIONMONTH", "REVISIONMONTH1", "REVISIONYEAR",
   "REVISIONTIMESTAMP", "REVISIONUSER", "REVISIONSIZE", "NUMBEROFPAGES",
   "NUMBEROFARTICLES", "NUMBEROFFILES", "NUMBEROFEDITS", "NUMBEROFVIEWS",
   "NUMBEROFUSERS", "NUMBEROFADMINS", "NUMBEROFACTIVEUSERS", "FULLPAGENAME",
   "PAGENAME", "BASEPAGENAME", "ROOTPAGENAME", "SUBPAGENAME",
   "ARTICLEPAGENAME", "SUBJECTPAGENAME", "TALKPAGENAME", "NAMESPACENUMBER",
   "NAMESPACE", "ARTICLESPACE", "SUBJECTSPACE", "TALKSPACE", "FULLPAGENAMEE",
   "PAGENAMEE", "BASEPAGENAMEE", "SUBPAGENAMEE", "SUBJECTPAGENAMEE",
   "ARTICLEPAGENAMEE", "TALKPAGENAMEE", "ROOTPAGENAMEE", "NAMESPACEE",
   "SUBJECTSPACEE", "ARTICLESPACEE", "TALKSPACEE", "SHORTDESC", "!"]

/-- `is_magic_word(string)`: membership in the fixed magic-word set. -/
def is_magic_word (s : String) : Bool := MAGIC_WORDS.contains s

/-- `is_parser_function(string)`: the name starts with the sigil
character used by MediaWiki parser functions. -/
def is_parser_function (s : String) : Bool := pyStartsWith s "#"

/-- `normalize_template_name(name)`: strip whitespace, then uppercase
the first character only.  Python raises `IndexError` when the stripped
string is empty; this is modelled by `none`. -/
def normalize_template_name (name : String) : Option String :=
  match stripChars name.data with
  | [] => none
  | c :: cs => some (String.mk (c.toUpper :: cs))

/-- `is_filtered_by_name(siteinfo, title)`: does the title start with
one of the blocklist entries?  (The `siteinfo` argument is unused in
the source as well.) -/
def is_filtered_by_name (si : SiteInfo) (title : String) : Bool :=
  FILTERED_TEMPLATE_PREFIXES.any (fun p => pyStartsWith title p)

/-- Result of running a piece of Python code: a value, or an uncaught
exception that aborts the run. -/
inductive PyRes (α : Type) where
  | ok : α → PyRes α
  | exc : PyRes α
deriving DecidableEq

/-- The module-level shared state of the resolver: `is_filtered.cache`
(memoized decisions; a cached value may itself be `none`, Python's
`None`) and `is_filtered.active` (names whose resolution is in
progress). -/
structure RState where
  cache : List (String × Option Bool)
  active : List String
deriving DecidableEq

/-- Lookup in the decision cache; the outer `Option` is presence of the
key, the inner `Option Bool` is the stored decision. -/
def lookupCache (c : List (String × Option Bool)) (k : String) :
    Option (Option Bool) :=
  alookup c k

/-- Write to the decision cache (Python dict assignment). -/
def insertCache (c : List (String × Option Bool)) (k : String)
    (v : Option Bool) : List (String × Option Bool) :=
  insertA c k v

/-- Completion of one `is_filtered` call: memoize the result under the
requested key and remove the key from the active set.  An exception
propagates (in Python the run aborts, so the state is irrelevant). -/
def memoize (title : String) (r : PyRes (Option Bool × RState)) :
    PyRes (Option Bool × RState) :=
  match r with
  | .exc => .exc
  | .ok (v, st) => .ok (v, ⟨insertCache st.cache title v, st.active.erase title⟩)

/-- `load_templates`, restricted to its table-building effect: fold over
the stream of pages; a page whose title starts with the template
namespace name followed by a colon is inserted under its stripped
title.  `exc` models the `KeyError` raised when namespace key "10" is
absent. -/
def load_templates_from (si : SiteInfo) :
    List Page → List (String × Page) → PyRes (List (String × Page))
  | [], tbl => .ok tbl
  | pg :: rest, tbl =>
    match si.template_namespace_name with
    | none => .exc
    | some ns =>
      if pyStartsWith pg.title (ns ++ ":") then
        load_templates_from si rest
          (insertA tbl (pyDropChars pg.title (ns ++ ":").data.length) pg)
      else
        load_templates_from si rest tbl

/-- The Template Table built by `load_templates` from a dump whose page
stream is `pages`. -/
def load_templates (si : SiteInfo) (pages : List Page) :
    PyRes (List (String × Page)) :=
  load_templates_from si pages []

/-- Fuel bound for the resolver: the recursion depth is limited by the
number of distinct table keys (each level of descent into a template
body adds a table key to the active set), plus slack for one
non-normalized top-level name. -/
def BIGF (tmpl : List (String × Page)) : Nat :=
  2 * (tmpl.map Prod.fst).dedup.length + 2

/-- Fuel-indexed embedding of the mutually recursive pair
`is_filtered` / `_is_filtered`.  The structure mirrors the source:
cache hit; active-set (cycle) hit returning the indeterminate `none`
without memoizing; otherwise the `_is_filtered` body runs with the
title added to the active set and its result is memoized.  The body:
normalize (whitespace-only names raise), then blocklist test, magic
word / parser function test, missing-template default, and otherwise
the first template invocation of the entry's parsed body decides the
result (the source's `return False` sits inside its `for` loop, so
later invocations are never inspected, and an empty body falls through
returning `None`). -/
def isFilteredF (si : SiteInfo) (tmpl : List (String × Page)) :
    Nat → String → RState → PyRes (Option Bool × RState)
  | 0, _, st => .ok (none, st)
  | f + 1, title, st =>
    match lookupCache st.cache title with
    | some v => .ok (v, st)
    | none =>
      if title ∈ st.active then .ok (none, st)
      else
        memoize title
          (match normalize_template_name title with
           | none => .exc
           | some t =>
             if is_filtered_by_name si t then
               .ok (some true, ⟨st.cache, title :: st.active⟩)
             else if is_magic_word t || is_parser_function t then
               .ok (some false, ⟨st.cache, title :: st.active⟩)
             else
               match alookup tmpl t with
               | none => .ok (some false, ⟨st.cache, title :: st.active⟩)
               | some page =>
                 match page.invocations with
                 | [] => .ok (none, ⟨st.cache, title :: st.active⟩)
                 | child :: _ =>
                   match normalize_template_name child with
                   | none => .exc
                   | some cname =>
                     match isFilteredF si tmpl f cname
                         ⟨st.cache, title :: st.active⟩ with
                     | .exc => .exc
                     | .ok (r, st2) =>
                       if r = some true then .ok (some true, st2)
                       else .ok (some false, st2))

/-- `is_filtered(siteinfo, title, templates)` with the shared state made
explicit: the fuel instantiation of `isFilteredF` at the sufficient
bound `BIGF` (see `isFilteredF_stable_ge`). -/
def is_filtered (si : SiteInfo) (tmpl : List (String × Page))
    (title : String) (st : RState) : PyRes (Option Bool × RState) :=
  isFilteredF si tmpl (BIGF tmpl) title st

/-- `_is_filtered(siteinfo, title, templates)`: the un-memoized body,
recursing through `is_filtered`.  `is_filtered_eq` below shows that
`is_filtered` is exactly the cache/active guard around this body. -/
def _is_filtered (si : SiteInfo) (tmpl : List (String × Page))
    (title : String) (st : RState) : PyRes (Option Bool × RState) :=
  match normalize_template_name title with
  | none => .exc
  | some t =>
    if is_filtered_by_name si t then .ok (some true, st)
    else if is_magic_word t || is_parser_function t then .ok (some false, st)
    else
      match alookup tmpl t with
      | none => .ok (some false, st)
      | some page =>
        match page.invocations with
        | [] => .ok (none, st)
        | child :: _ =>
          match normalize_template_name child with
          | none => .exc
          | some cname =>
            match is_filtered si tmpl cname st with
            | .exc => .exc
            | .ok (r, st2) =>
              if r = some true then .ok (some true, st2)
              else .ok (some false, st2)

/-- Cache-free reference semantics of one resolution: the same descent
as `isFilteredF` but tracking only the set of names on the current
descent path.  Used to state that the memoized decisions are a function
of the template graph alone. -/
def pvalF (si : SiteInfo) (tmpl : List (String × Page)) :
    Nat → String → List String → PyRes (Option Bool)
  | 0, _, _ => .ok none
  | f + 1, title, visited =>
    if title ∈ visited then .ok none
    else
      match normalize_template_name title with
      | none => .exc
      | some t =>
        if is_filtered_by_name si t then .ok (some true)
        else if is_magic_word t || is_parser_function t then .ok (some false)
        else
          match alookup tmpl t with
          | none => .ok (some false)
          | some page =>
            match page.invocations with
            | [] => .ok none
            | child :: _ =>
              match normalize_template_name child with
              | none => .exc
              | some cname =>
                match pvalF si tmpl f cname (title :: visited) with
                | .exc => .exc
                | .ok r =>
                  if r = some true then .ok (some true) else .ok (some false)

/-- The reference semantics at the sufficient fuel bound. -/
def pval (si : SiteInfo) (tmpl : List (String × Page))
    (title : String) (visited : List String) : PyRes (Option Bool) :=
  pvalF si tmpl (BIGF tmpl) title visited

/-- The canonical decision for a name: one fresh resolution against the
template graph (empty descent path). -/
def val (si : SiteInfo) (tmpl : List (String × Page)) (title : String) :
    PyRes (Option Bool) :=
  pval si tmpl title []

/-- `remove_filtered_templates` on the model of a parsed page body (the
list of its template-invocation names): each name is normalized (a
whitespace-only name raises and aborts the run) and resolved; the
invocations whose decision is `True` are removed, everything else is
kept in order.  Returns the remaining invocation list and the final
shared state. -/
def remove_filtered_templates (si : SiteInfo) (tmpl : List (String × Page)) :
    List String → RState → PyRes (List String × RState)
  | [], st => .ok ([], st)
  | t :: rest, st =>
    match normalize_template_name t with
    | none => .exc
    | some tname =>
      match is_filtered si tmpl tname st with
      | .exc => .exc
      | .ok (r, st1) =>
        match remove_filtered_templates si tmpl rest st1 with
        | .exc => .exc
        | .ok (rest1, st2) =>
          if r = some true then .ok (rest1, st2) else .ok (t :: rest1, st2)

/-- A sequence of top-level `is_filtered` calls (the calls one filter
run makes while processing pages, in order), threading the shared
state; `none` when some call raises. -/
def runHist (si : SiteInfo) (tmpl : List (String × Page)) :
    List String → RState → Option RState
  | [], st => some st
  | t :: rest, st =>
    match is_filtered si tmpl t st with
    | .exc => none
    | .ok (_, st1) => runHist si tmpl rest st1

/-! ### Character and string facts -/

theorem char_toNat_ofNat {n : Nat} (h : n.isValidChar) :
    (Char.ofNat n).toNat = n := by
  simp only [Char.ofNat]
  rw [dif_pos h]
  simp [Char.ofNatAux, Char.toNat, UInt32.toNat]

theorem char_eq_of_toNat_eq {a b : Char} (h : a.toNat = b.toNat) : a = b := by
  have ha := Char.ofNat_toNat a
  rw [h, Char.ofNat_toNat b] at ha
  exact ha.symm

theorem wsp_eq_false_of_ge {d : Char} (h1 : 33 ≤ d.toNat) : wsp d = false := by
  simp only [wsp, Char.isWhitespace, Bool.or_eq_false_iff, decide_eq_false_iff_not]
  refine ⟨⟨⟨?_, ?_⟩, ?_⟩, ?_⟩ <;> rintro rfl <;> exact absurd h1 (by decide)

theorem toUpper_eq_of_not {c : Char} (h : ¬(97 ≤ c.toNat ∧ c.toNat ≤ 122)) :
    c.toUpper = c := by
  simp only [Char.toUpper]
  rw [if_neg h]

theorem toUpper_toNat_of {c : Char} (h1 : 97 ≤ c.toNat) (h2 : c.toNat ≤ 122) :
    c.toUpper.toNat = c.toNat - 32 := by
  simp only [Char.toUpper]
  rw [if_pos ⟨h1, h2⟩]
  exact char_toNat_ofNat (Or.inl (by omega))

theorem wsp_toUpper (c : Char) : wsp c.toUpper = wsp c := by
  by_cases h : 97 ≤ c.toNat ∧ c.toNat ≤ 122
  · have hu := toUpper_toNat_of h.1 h.2
    rw [wsp_eq_false_of_ge (d := c.toUpper) (by omega),
        wsp_eq_false_of_ge (d := c) (by omega)]
  · rw [toUpper_eq_of_not h]

theorem toUpper_toUpper (c : Char) : c.toUpper.toUpper = c.toUpper := by
  by_cases h : 97 ≤ c.toNat ∧ c.toNat ≤ 122
  · have hu := toUpper_toNat_of h.1 h.2
    apply toUpper_eq_of_not
    omega
  · rw [toUpper_eq_of_not h, toUpper_eq_of_not h]

theorem wsp_of_head_dropWhile {l : List Char} {a : Char}
    (h : (l.dropWhile wsp).head? = some a) : wsp a = false := by
  have hh := List.head?_dropWhile_not wsp l
  rw [h] at hh
  exact hh

theorem stripChars_head_wsp {l : List Char} {a : Char}
    (h : (stripChars l).head? = some a) : wsp a = false := by
  unfold stripChars at h
  rw [List.head?_reverse] at h
  obtain ⟨pre, hpre⟩ := List.dropWhile_suffix (l := (l.dropWhile wsp).reverse) wsp
  have hlast : ((l.dropWhile wsp).reverse).getLast? = some a := by
    rw [← hpre, List.getLast?_append, h]
    rfl
  rw [List.getLast?_reverse] at hlast
  exact wsp_of_head_dropWhile hlast

theorem stripChars_getLast_wsp {l : List Char} {a : Char}
    (h : (stripChars l).getLast? = some a) : wsp a = false := by
  unfold stripChars at h
  rw [List.getLast?_reverse] at h
  exact wsp_of_head_dropWhile h

theorem stripChars_eq_self {l : List Char}
    (h1 : ∀ a, l.head? = some a → wsp a = false)
    (h2 : ∀ a, l.getLast? = some a → wsp a = false) :
    stripChars l = l := by
  cases l with
  | nil => rfl
  | cons c cs =>
    unfold stripChars
    rw [List.dropWhile_cons_of_neg (by simp [h1 c rfl])]
    cases hrev : (c :: cs).reverse with
    | nil => simp at hrev
    | cons d ds =>
      have hd : wsp d = false := by
        apply h2
        rw [← List.head?_reverse, hrev]
        rfl
      rw [List.dropWhile_cons_of_neg (by simp [hd]), ← hrev,
          List.reverse_reverse]

theorem forall_wsp_dropWhile {l : List Char} :
    (∀ x ∈ l.dropWhile wsp, wsp x) ↔ (∀ x ∈ l, wsp x) := by
  induction l with
  | nil => simp
  | cons a as ih =>
    by_cases ha : wsp a
    · rw [List.dropWhile_cons_of_pos ha]
      constructor
      · intro h x hx
        rcases List.mem_cons.mp hx with rfl | hx
        · exact ha
        · exact ih.mp h x hx
      · intro h x hx
        exact ih.mpr (fun y hy => h y (List.mem_cons_of_mem a hy)) x hx
    · rw [List.dropWhile_cons_of_neg ha]

theorem stripChars_eq_nil_iff {l : List Char} :
    stripChars l = [] ↔ ∀ c ∈ l, wsp c := by
  unfold stripChars
  rw [List.reverse_eq_nil_iff, List.dropWhile_eq_nil_iff]
  constructor
  · intro h
    apply forall_wsp_dropWhile.mp
    intro x hx
    exact h x (List.mem_reverse.mpr hx)
  · intro h x hx
    exact forall_wsp_dropWhile.mpr h x (List.mem_reverse.mp hx)

theorem normalize_template_name_idem {x y : String}
    (h : normalize_template_name x = some y) :
    normalize_template_name y = some y := by
  unfold normalize_template_name at h
  cases hs : stripChars x.data with
  | nil => rw [hs] at h; exact absurd h (by simp)
  | cons c cs =>
    rw [hs] at h
    have hy : String.mk (c.toUpper :: cs) = y := Option.some.inj h
    subst hy
    have hc : wsp c = false := stripChars_head_wsp (l := x.data) (by rw [hs]; rfl)
    unfold normalize_template_name
    have hdata : (String.mk (c.toUpper :: cs)).data = c.toUpper :: cs := rfl
    rw [hdata]
    have hfix : stripChars (c.toUpper :: cs) = c.toUpper :: cs := by
      apply stripChars_eq_self
      · intro a ha
        have : a = c.toUpper := by
          simpa using ha.symm
        subst this
        rw [wsp_toUpper]
        exact hc
      · intro a ha
        cases cs with
        | nil =>
          have : a = c.toUpper := by simpa using ha.symm
          subst this
          rw [wsp_toUpper]
          exact hc
        | cons d ds =>
          rw [List.getLast?_cons_cons] at ha
          exact stripChars_getLast_wsp (l := x.data)
            (by rw [hs, List.getLast?_cons_cons]; exact ha)
    rw [hfix]
    show some (String.mk (c.toUpper.toUpper :: cs)) = some (String.mk (c.toUpper :: cs))
    rw [toUpper_toUpper]

/-! ### Association list facts -/

theorem alookup_cons {β : Type} (a : String) (b : β) (m : List (String × β))
    (key : String) :
    alookup ((a, b) :: m) key = if a = key then some b else alookup m key := rfl

theorem alookup_insertA_self {β : Type} (m : List (String × β)) (k : String) (v : β) :
    alookup (insertA m k v) k = some v := by
  unfold insertA
  by_cases hp : (alookup m k).isSome
  · rw [if_pos hp]
    induction m with
    | nil => simp [alookup] at hp
    | cons p m ih =>
      obtain ⟨a, b⟩ := p
      by_cases ha : a = k
      · subst ha
        simp [alookup_cons]
      · have hp2 : (alookup m k).isSome := by
          simpa [alookup_cons, ha] using hp
        simpa [alookup_cons, ha] using ih hp2
  · rw [if_neg hp]
    induction m with
    | nil => simp [alookup_cons]
    | cons p m ih =>
      obtain ⟨a, b⟩ := p
      by_cases ha : a = k
      · exfalso
        apply hp
        simp [alookup_cons, ha]
      · have hp2 : ¬ (alookup m k).isSome := by
          simpa [alookup_cons, ha] using hp
        simpa [alookup_cons, ha] using ih hp2

theorem alookup_map_set_ne {β : Type} (m : List (String × β)) (k : String) (v : β)
    (k1 : String) (h : k1 ≠ k) :
    alookup (m.map (fun p => if p.1 = k then (k, v) else p)) k1 = alookup m k1 := by
  induction m with
  | nil => rfl
  | cons p m ih =>
    obtain ⟨a, b⟩ := p
    by_cases ha : a = k
    · subst ha
      have hne : ¬ a = k1 := fun hh => h (hh.symm)
      simpa [alookup_cons, hne] using ih

    · by_cases hak : a = k1
      · simp [alookup_cons, ha, hak, h]
      · simpa [alookup_cons, ha, hak] using ih

theorem alookup_append_ne {β : Type} (m : List (String × β)) (k : String) (v : β)
    (k1 : String) (h : k1 ≠ k) :
    alookup (m ++ [(k, v)]) k1 = alookup m k1 := by
  induction m with
  | nil =>
    have hne : ¬ k = k1 := fun hh => h (hh.symm)
    simp [alookup_cons, hne, alookup]
  | cons p m ih =>
    obtain ⟨a, b⟩ := p
    by_cases hak : a = k1
    · simp [alookup_cons, hak]
    · simpa [alookup_cons, hak] using ih

theorem alookup_insertA_ne {β : Type} (m : List (String × β)) (k : String) (v : β)
    (k1 : String) (h : k1 ≠ k) :
    alookup (insertA m k v) k1 = alookup m k1 := by
  unfold insertA
  by_cases hp : (alookup m k).isSome
  · rw [if_pos hp]
    exact alookup_map_set_ne m k v k1 h
  · rw [if_neg hp]
    exact alookup_append_ne m k v k1 h

theorem lookupCache_insertCache (c : List (String × Option Bool)) (k : String)
    (v : Option Bool) (k1 : String) :
    lookupCache (insertCache c k v) k1 =
      if k1 = k then some v else lookupCache c k1 := by
  unfold lookupCache insertCache
  by_cases h : k1 = k
  · rw [if_pos h, h]
    exact alookup_insertA_self c k v
  · rw [if_neg h]
    exact alookup_insertA_ne c k v k1 h

theorem mem_of_alookup_some {β : Type} {m : List (String × β)} {k : String} {v : β}
    (h : alookup m k = some v) : k ∈ m.map Prod.fst := by
  induction m with
  | nil => simp [alookup] at h
  | cons p m ih =>
    obtain ⟨a, b⟩ := p
    rw [alookup_cons] at h
    by_cases ha : a = k
    · subst ha
      simp
    · rw [if_neg ha] at h
      simp only [List.map_cons, List.mem_cons]
      exact Or.inr (ih h)

/-! ### Fuel bound machinery -/

/-- The set of Template Table keys. -/
def keyFinset (tmpl : List (String × Page)) : Finset String :=
  (tmpl.map Prod.fst).toFinset

/-- Number of table keys not yet in the active set: the maximal further
recursion depth of the resolver, up to the `normBit` correction. -/
def numFree (tmpl : List (String × Page)) (active : List String) : Nat :=
  (keyFinset tmpl \ active.toFinset).card

/-- Correction for a title that is not a fixed point of normalization
(only possible at the top of a descent; every recursive call passes a
normalized name). -/
def normBit (title : String) : Nat :=
  if normalize_template_name title = some title then 0 else 1

/-- Termination measure for the resolver descent. -/
def boundMu (tmpl : List (String × Page)) (title : String)
    (active : List String) : Nat :=
  2 * numFree tmpl active + normBit title

theorem numFree_cons_le (tmpl : List (String × Page)) (t : String)
    (active : List String) :
    numFree tmpl (t :: active) ≤ numFree tmpl active := by
  apply Finset.card_le_card
  apply Finset.sdiff_subset_sdiff (le_refl _)
  rw [List.toFinset_cons]
  exact Finset.subset_insert t active.toFinset

theorem numFree_cons_lt (tmpl : List (String × Page)) (t : String)
    (active : List String) (ht : t ∈ keyFinset tmpl) (ha : t ∉ active) :
    numFree tmpl (t :: active) < numFree tmpl active := by
  apply Finset.card_lt_card
  rw [Finset.ssubset_iff_of_subset]
  · refine ⟨t, ?_, ?_⟩
    · rw [Finset.mem_sdiff]
      exact ⟨ht, fun hc => ha (List.mem_toFinset.mp hc)⟩
    · rw [Finset.mem_sdiff, List.toFinset_cons]
      rintro ⟨-, hc⟩
      exact hc (Finset.mem_insert_self t _)
  · apply Finset.sdiff_subset_sdiff (le_refl _)
    rw [List.toFinset_cons]
    exact Finset.subset_insert t active.toFinset

theorem numFree_le (tmpl : List (String × Page)) (active : List String) :
    numFree tmpl active ≤ (tmpl.map Prod.fst).dedup.length := by
  calc numFree tmpl active ≤ (keyFinset tmpl).card :=
        Finset.card_le_card (Finset.sdiff_subset)
    _ = (tmpl.map Prod.fst).dedup.length := List.card_toFinset _

theorem boundMu_step {tmpl : List (String × Page)} {title child t1 cname : String}
    {active : List String} {pg : Page}
    (hn : normalize_template_name title = some t1)
    (hlook : alookup tmpl t1 = some pg)
    (hact : title ∉ active)
    (hchild : normalize_template_name child = some cname) :
    boundMu tmpl cname (title :: active) < boundMu tmpl title active := by
  have hcb : normBit cname = 0 := by
    unfold normBit
    rw [if_pos (normalize_template_name_idem hchild)]
  by_cases hN : normalize_template_name title = some title
  · have ht : t1 = title := by
      rw [hN] at hn
      exact (Option.some.inj hn).symm
    subst ht
    have hmem : t1 ∈ keyFinset tmpl :=
      List.mem_toFinset.mpr (mem_of_alookup_some hlook)
    have := numFree_cons_lt tmpl t1 active hmem hact
    have hb : normBit t1 = 0 := by
      unfold normBit
      rw [if_pos hN]
    unfold boundMu
    omega
  · have hb : normBit title = 1 := by
      unfold normBit
      rw [if_neg hN]
    have := numFree_cons_le tmpl title active
    unfold boundMu
    omega

theorem boundMu_lt_BIGF (tmpl : List (String × Page)) (title : String)
    (active : List String) :
    boundMu tmpl title active < BIGF tmpl := by
  have h1 := numFree_le tmpl active
  have h2 : normBit title ≤ 1 := by
    unfold normBit
    split <;> omega
  unfold boundMu BIGF
  omega

theorem boundMu_norm_lt (tmpl : List (String × Page)) {title : String}
    (active : List String)
    (h : normalize_template_name title = some title) :
    boundMu tmpl title active < BIGF tmpl - 1 := by
  have h1 := numFree_le tmpl active
  have h2 : normBit title = 0 := by
    unfold normBit
    rw [if_pos h]
  unfold boundMu BIGF
  omega

/-! ### Fuel stability of the resolver -/

theorem isFilteredF_stable (f : Nat) :
    ∀ (si : SiteInfo) (tmpl : List (String × Page)) (title : String) (st : RState),
      boundMu tmpl title st.active < f →
      isFilteredF si tmpl f title st = isFilteredF si tmpl (f + 1) title st := by
  induction f with
  | zero =>
    intro si tmpl title st h
    omega
  | succ f ih =>
    intro si tmpl title st h
    conv_lhs => rw [isFilteredF]
    conv_rhs => rw [isFilteredF]
    cases hc : lookupCache st.cache title with
    | some v => rfl
    | none =>
      dsimp only
      by_cases ha : title ∈ st.active
      · rw [if_pos ha, if_pos ha]
      · rw [if_neg ha, if_neg ha]
        congr 1
        cases hn : normalize_template_name title with
        | none => rfl
        | some t =>
          dsimp only
          by_cases hpre : is_filtered_by_name si t
          · rw [if_pos hpre, if_pos hpre]
          · rw [if_neg hpre, if_neg hpre]
            by_cases hmw : (is_magic_word t || is_parser_function t) = true
            · rw [if_pos hmw, if_pos hmw]
            · rw [if_neg hmw, if_neg hmw]
              cases hlook : alookup tmpl t with
              | none => rfl
              | some page =>
                dsimp only
                cases hinv : page.invocations with
                | nil => rfl
                | cons child rest =>
                  dsimp only
                  cases hcn : normalize_template_name child with
                  | none => rfl
                  | some cname =>
                    dsimp only
                    rw [ih si tmpl cname ⟨st.cache, title :: st.active⟩ ?_]
                    have hstep := boundMu_step hn hlook ha hcn
                    show boundMu tmpl cname (title :: st.active) < f
                    omega

theorem isFilteredF_stable_ge {f g : Nat} (si : SiteInfo)
    (tmpl : List (String × Page)) (title : String) (st : RState)
    (hf : boundMu tmpl title st.active < f) (hfg : f ≤ g) :
    isFilteredF si tmpl f title st = isFilteredF si tmpl g title st := by
  induction g, hfg using Nat.le_induction with
  | base => rfl
  | succ g hg ihg =>
    rw [ihg, isFilteredF_stable g si tmpl title st (lt_of_lt_of_le hf hg)]

/-- Any fuel at least `BIGF` computes `is_filtered`: the embedding's
result does not depend on the fuel bound, i.e. the Python recursion
terminates with this value. -/
theorem isFilteredF_ge_BIGF (si : SiteInfo) (tmpl : List (String × Page))
    (title : String) (st : RState) {g : Nat} (hg : BIGF tmpl ≤ g) :
    isFilteredF si tmpl g title st = is_filtered si tmpl title st := by
  unfold is_filtered
  rw [← isFilteredF_stable_ge si tmpl title st (boundMu_lt_BIGF tmpl title st.active) hg]

/-- `is_filtered` unfolds to the source's structure: cache hit, cycle
guard, otherwise the memoized `_is_filtered` body run with the title
marked active. -/
theorem is_filtered_eq (si : SiteInfo) (tmpl : List (String × Page))
    (title : String) (st : RState) :
    is_filtered si tmpl title st =
      match lookupCache st.cache title with
      | some v => .ok (v, st)
      | none =>
        if title ∈ st.active then .ok (none, st)
        else memoize title
          (_is_filtered si tmpl title ⟨st.cache, title :: st.active⟩) := by
  conv_lhs => unfold is_filtered
  have hB : BIGF tmpl = (2 * (tmpl.map Prod.fst).dedup.length + 1) + 1 := by
    unfold BIGF
    omega
  rw [hB]
  conv_lhs => rw [isFilteredF]
  cases hc : lookupCache st.cache title with
  | some v => rfl
  | none =>
    dsimp only
    by_cases ha : title ∈ st.active
    · rw [if_pos ha, if_pos ha]
    · rw [if_neg ha, if_neg ha]
      congr 1
      unfold _is_filtered
      cases hn : normalize_template_name title with
      | none => rfl
      | some t =>
        dsimp only
        by_cases hpre : is_filtered_by_name si t
        · rw [if_pos hpre, if_pos hpre]
        · rw [if_neg hpre, if_neg hpre]
          by_cases hmw : (is_magic_word t || is_parser_function t) = true
          · rw [if_pos hmw, if_pos hmw]
          · rw [if_neg hmw, if_neg hmw]
            cases hlook : alookup tmpl t with
            | none => rfl
            | some page =>
              dsimp only
              cases hinv : page.invocations with
              | nil => rfl
              | cons child rest =>
                dsimp only
                cases hcn : normalize_template_name child with
                | none => rfl
                | some cname =>
                  dsimp only
                  have hcnorm := normalize_template_name_idem hcn
                  have hlt := boundMu_norm_lt tmpl (title :: st.active) hcnorm
                  rw [isFilteredF_stable_ge si tmpl cname
                        ⟨st.cache, title :: st.active⟩ ?_ ?_ ]
                  · rfl
                  · show boundMu tmpl cname (title :: st.active) <
                      2 * (tmpl.map Prod.fst).dedup.length + 1
                    unfold BIGF at hlt
                    omega
                  · show 2 * (tmpl.map Prod.fst).dedup.length + 1 ≤ BIGF tmpl
                    unfold BIGF
                    omega

theorem pvalF_stable (f : Nat) :
    ∀ (si : SiteInfo) (tmpl : List (String × Page)) (title : String)
      (visited : List String),
      boundMu tmpl title visited < f →
      pvalF si tmpl f title visited = pvalF si tmpl (f + 1) title visited := by
  induction f with
  | zero =>
    intro si tmpl title visited h
    omega
  | succ f ih =>
    intro si tmpl title visited h
    conv_lhs => rw [pvalF]
    conv_rhs => rw [pvalF]
    by_cases hv : title ∈ visited
    · rw [if_pos hv, if_pos hv]
    · rw [if_neg hv, if_neg hv]
      cases hn : normalize_template_name title with
      | none => rfl
      | some t =>
        dsimp only
        by_cases hpre : is_filtered_by_name si t
        · rw [if_pos hpre, if_pos hpre]
        · rw [if_neg hpre, if_neg hpre]
          by_cases hmw : (is_magic_word t || is_parser_function t) = true
          · rw [if_pos hmw, if_pos hmw]
          · rw [if_neg hmw, if_neg hmw]
            cases hlook : alookup tmpl t with
            | none => rfl
            | some page =>
              dsimp only
              cases hinv : page.invocations with
              | nil => rfl
              | cons child rest =>
                dsimp only
                cases hcn : normalize_template_name child with
                | none => rfl
                | some cname =>
                  dsimp only
                  rw [ih si tmpl cname (title :: visited) ?_]
                  have hstep := boundMu_step hn hlook hv hcn
                  show boundMu tmpl cname (title :: visited) < f
                  omega

theorem pvalF_stable_ge {f g : Nat} (si : SiteInfo)
    (tmpl : List (String × Page)) (title : String) (visited : List String)
    (hf : boundMu tmpl title visited < f) (hfg : f ≤ g) :
    pvalF si tmpl f title visited = pvalF si tmpl g title visited := by
  induction g, hfg using Nat.le_induction with
  | base => rfl
  | succ g hg ihg =>
    rw [ihg, pvalF_stable g si tmpl title visited (lt_of_lt_of_le hf hg)]

theorem pvalF_ge_BIGF (si : SiteInfo) (tmpl : List (String × Page))
    (title : String) (visited : List String) {g : Nat} (hg : BIGF tmpl ≤ g) :
    pvalF si tmpl g title visited = pval si tmpl title visited := by
  unfold pval
  rw [← pvalF_stable_ge si tmpl title visited (boundMu_lt_BIGF tmpl title visited) hg]

/-- One-step unfolding of `pval` with the recursive occurrence again at
the canonical fuel. -/
theorem pval_eq (si : SiteInfo) (tmpl : List (String × Page))
    (title : String) (visited : List String) :
    pval si tmpl title visited =
      if title ∈ visited then .ok none
      else
        match normalize_template_name title with
        | none => .exc
        | some t =>
          if is_filtered_by_name si t then .ok (some true)
          else if is_magic_word t || is_parser_function t then .ok (some false)
          else
            match alookup tmpl t with
            | none => .ok (some false)
            | some page =>
              match page.invocations with
              | [] => .ok none
              | child :: _ =>
                match normalize_template_name child with
                | none => .exc
                | some cname =>
                  match pval si tmpl cname (title :: visited) with
                  | .exc => .exc
                  | .ok r =>
                    if r = some true then .ok (some true) else .ok (some false) := by
  conv_lhs => unfold pval
  have hB : BIGF tmpl = (2 * (tmpl.map Prod.fst).dedup.length + 1) + 1 := by
    unfold BIGF
    omega
  rw [hB]
  conv_lhs => rw [pvalF]
  by_cases hv : title ∈ visited
  · rw [if_pos hv, if_pos hv]
  · rw [if_neg hv, if_neg hv]
    cases hn : normalize_template_name title with
    | none => rfl
    | some t =>
      dsimp only
      by_cases hpre : is_filtered_by_name si t
      · rw [if_pos hpre, if_pos hpre]
      · rw [if_neg hpre, if_neg hpre]
        by_cases hmw : (is_magic_word t || is_parser_function t) = true
        · rw [if_pos hmw, if_pos hmw]
        · rw [if_neg hmw, if_neg hmw]
          cases hlook : alookup tmpl t with
          | none => rfl
          | some page =>
            dsimp only
            cases hinv : page.invocations with
            | nil => rfl
            | cons child rest =>
              dsimp only
              cases hcn : normalize_template_name child with
              | none => rfl
              | some cname =>
                dsimp only
                have hcnorm := normalize_template_name_idem hcn
                have hlt := boundMu_norm_lt tmpl (title :: visited) hcnorm
                rw [pvalF_stable_ge si tmpl cname (title :: visited) ?_ ?_ ]
                · rfl
                · show boundMu tmpl cname (title :: visited) <
                    2 * (tmpl.map Prod.fst).dedup.length + 1
                  unfold BIGF at hlt
                  omega
                · show 2 * (tmpl.map Prod.fst).dedup.length + 1 ≤ BIGF tmpl
                  unfold BIGF
                  omega

/-! ### The active set is restored by every completed call -/

theorem isFilteredF_active (f : Nat) :
    ∀ (si : SiteInfo) (tmpl : List (String × Page)) (title : String)
      (st : RState) (v : Option Bool) (st1 : RState),
      isFilteredF si tmpl f title st = .ok (v, st1) →
      st1.active = st.active := by
  induction f with
  | zero =>
    intro si tmpl title st v st1 h
    rw [isFilteredF] at h
    cases h
    rfl
  | succ f ih =>
    intro si tmpl title st v st1 h
    rw [isFilteredF] at h
    revert h
    cases hc : lookupCache st.cache title with
    | some w =>
      intro h
      cases h
      rfl
    | none =>
      dsimp only
      by_cases ha : title ∈ st.active
      · rw [if_pos ha]
        intro h
        cases h
        rfl
      · rw [if_neg ha]
        cases hn : normalize_template_name title with
        | none =>
          intro h
          cases h
        | some t =>
          dsimp only
          by_cases hpre : is_filtered_by_name si t
          · rw [if_pos hpre]
            intro h
            cases h
            exact List.erase_cons_head title st.active
          · rw [if_neg hpre]
            by_cases hmw : (is_magic_word t || is_parser_function t) = true
            · rw [if_pos hmw]
              intro h
              cases h
              exact List.erase_cons_head title st.active
            · rw [if_neg hmw]
              cases hlook : alookup tmpl t with
              | none =>
                intro h
                cases h
                exact List.erase_cons_head title st.active
              | some page =>
                dsimp only
                cases hinv : page.invocations with
                | nil =>
                  intro h
                  cases h
                  exact List.erase_cons_head title st.active
                | cons child rest =>
                  dsimp only
                  cases hcn : normalize_template_name child with
                  | none =>
                    intro h
                    cases h
                  | some cname =>
                    dsimp only
                    cases hrec : isFilteredF si tmpl f cname
                        ⟨st.cache, title :: st.active⟩ with
                    | exc =>
                      intro h
                      cases h
                    | ok p =>
                      obtain ⟨r, st2⟩ := p
                      have hact2 : st2.active = title :: st.active :=
                        ih si tmpl cname ⟨st.cache, title :: st.active⟩ r st2 hrec
                      dsimp only
                      by_cases hr : r = some true
                      · rw [if_pos hr]
                        intro h
                        unfold memoize at h
                        cases h
                        show st2.active.erase title = st.active
                        rw [hact2]
                        exact List.erase_cons_head title st.active
                      · rw [if_neg hr]
                        intro h
                        unfold memoize at h
                        cases h
                        show st2.active.erase title = st.active
                        rw [hact2]
                        exact List.erase_cons_head title st.active

theorem is_filtered_active (si : SiteInfo) (tmpl : List (String × Page))
    (title : String) (st : RState) (v : Option Bool) (st1 : RState)
    (h : is_filtered si tmpl title st = .ok (v, st1)) :
    st1.active = st.active :=
  isFilteredF_active (BIGF tmpl) si tmpl title st v st1 h

/-! ### The Template Table construction -/

/-- Does a page lie in the template namespace `ns`? -/
def tmatch (ns : String) (pg : Page) : Bool := pyStartsWith pg.title (ns ++ ":")

/-- The local name of a template page: its title with the namespace
marker stripped. -/
def localName (ns : String) (pg : Page) : String :=
  pyDropChars pg.title (ns ++ ":").data.length

/-- Pure fold computing the table `load_templates` builds. -/
def buildTbl (ns : String) (pages : List Page) (tbl : List (String × Page)) :
    List (String × Page) :=
  pages.foldl
    (fun t pg => if tmatch ns pg then insertA t (localName ns pg) pg else t) tbl

/-- Local names of the template-namespace pages, in stream order. -/
def matchNames (ns : String) (pages : List Page) : List String :=
  pages.filterMap
    (fun pg => if tmatch ns pg then some (localName ns pg) else none)

/-- The last page in stream order that lies in the template namespace
and has local name `k`. -/
def lastMatch (ns : String) (k : String) : List Page → Option Page
  | [] => none
  | pg :: rest =>
    (lastMatch ns k rest).or
      (if tmatch ns pg && (localName ns pg == k) then some pg else none)

theorem load_templates_from_ok {si : SiteInfo} {ns : String}
    (hns : si.template_namespace_name = some ns) :
    ∀ (pages : List Page) (tbl : List (String × Page)),
      load_templates_from si pages tbl = .ok (buildTbl ns pages tbl) := by
  intro pages
  induction pages with
  | nil => intro tbl; rfl
  | cons pg rest ih =>
    intro tbl
    unfold load_templates_from
    rw [hns]
    dsimp only
    unfold buildTbl
    rw [List.foldl_cons]
    by_cases hm : tmatch ns pg
    · rw [if_pos ?_, if_pos hm]
      · exact ih (insertA tbl (localName ns pg) pg)
      · exact hm
    · rw [if_neg ?_, if_neg hm]
      · exact ih tbl
      · exact hm

theorem alookup_buildTbl (ns : String) :
    ∀ (pages : List Page) (tbl : List (String × Page)) (k : String),
      alookup (buildTbl ns pages tbl) k =
        (lastMatch ns k pages).or (alookup tbl k) := by
  intro pages
  induction pages with
  | nil => intro tbl k; rfl
  | cons pg rest ih =>
    intro tbl k
    show alookup
      (buildTbl ns rest
        (if tmatch ns pg then insertA tbl (localName ns pg) pg else tbl)) k = _
    rw [ih]
    have hstep :
        alookup (if tmatch ns pg then insertA tbl (localName ns pg) pg else tbl) k =
          (if (tmatch ns pg && (localName ns pg == k)) = true then some pg
           else none).or (alookup tbl k) := by
      by_cases hm : tmatch ns pg
      · rw [if_pos hm]
        by_cases hk : localName ns pg = k
        · subst hk
          rw [alookup_insertA_self]
          have hc : (tmatch ns pg && (localName ns pg == localName ns pg)) = true := by
            simp [hm]
          rw [if_pos hc]
          rfl
        · rw [alookup_insertA_ne _ _ _ _ (fun hh => hk hh.symm)]
          have hc : (tmatch ns pg && (localName ns pg == k)) = false := by
            simp [hk]
          rw [hc]
          simp
      · rw [if_neg hm]
        have hc : (tmatch ns pg && (localName ns pg == k)) = false := by
          simp [hm]
        rw [hc]
        simp
    rw [hstep]
    rw [show lastMatch ns k (pg :: rest) =
          (lastMatch ns k rest).or
            (if tmatch ns pg && (localName ns pg == k) then some pg else none)
        from rfl]
    rw [Option.or_assoc]

theorem lastMatch_isSome_iff (ns k : String) (pages : List Page) :
    (lastMatch ns k pages).isSome = true ↔
      ∃ pg ∈ pages, tmatch ns pg = true ∧ localName ns pg = k := by
  induction pages with
  | nil => simp [lastMatch]
  | cons pg rest ih =>
    unfold lastMatch
    rw [Option.isSome_or]
    constructor
    · intro h
      rcases Bool.or_eq_true_iff.mp h with h1 | h2
      · obtain ⟨q, hq, hq2⟩ := ih.mp h1
        exact ⟨q, List.mem_cons_of_mem pg hq, hq2⟩
      · by_cases hc : (tmatch ns pg && (localName ns pg == k)) = true
        · have := Bool.and_eq_true_iff.mp hc
          exact ⟨pg, List.mem_cons_self pg rest,
            this.1, by simpa using this.2⟩
        · rw [if_neg hc] at h2
          simp at h2
    · rintro ⟨q, hq, hq1, hq2⟩
      rcases List.mem_cons.mp hq with rfl | hq
      · apply Bool.or_eq_true_iff.mpr
        right
        rw [if_pos (by simp [hq1, hq2])]
        rfl
      · exact Bool.or_eq_true_iff.mpr (Or.inl (ih.mpr ⟨q, hq, hq1, hq2⟩))

theorem alookup_eq_none_iff {β : Type} (m : List (String × β)) (k : String) :
    alookup m k = none ↔ k ∉ m.map Prod.fst := by
  induction m with
  | nil => simp [alookup]
  | cons p m ih =>
    obtain ⟨a, b⟩ := p
    rw [alookup_cons]
    by_cases ha : a = k
    · subst ha
      simp
    · rw [if_neg ha]
      simp only [List.map_cons, List.mem_cons]
      rw [ih]
      constructor
      · rintro h (rfl | hm)
        · exact ha rfl
        · exact h hm
      · intro h hm
        exact h (Or.inr hm)

theorem insertA_keys {β : Type} (m : List (String × β)) (k : String) (v : β) :
    (insertA m k v).map Prod.fst =
      if (alookup m k).isSome then m.map Prod.fst else m.map Prod.fst ++ [k] := by
  unfold insertA
  by_cases hp : (alookup m k).isSome
  · rw [if_pos hp, if_pos hp, List.map_map]
    apply List.map_congr_left
    intro p hp1
    by_cases he : p.1 = k
    · simp [he]
    · simp [he]
  · rw [if_neg hp, if_neg hp]
    simp

theorem insertA_nodupKeys {β : Type} (m : List (String × β)) (k : String) (v : β)
    (h : (m.map Prod.fst).Nodup) : ((insertA m k v).map Prod.fst).Nodup := by
  rw [insertA_keys]
  by_cases hp : (alookup m k).isSome
  · rw [if_pos hp]
    exact h
  · rw [if_neg hp]
    have hk : k ∉ m.map Prod.fst := by
      rw [← alookup_eq_none_iff]
      exact Option.not_isSome_iff_eq_none.mp hp
    simp [List.nodup_append, h, hk]

theorem insertA_keys_toFinset {β : Type} (m : List (String × β)) (k : String) (v : β) :
    ((insertA m k v).map Prod.fst).toFinset =
      insert k (m.map Prod.fst).toFinset := by
  rw [insertA_keys]
  by_cases hp : (alookup m k).isSome
  · rw [if_pos hp]
    have hk : k ∈ m.map Prod.fst := by
      obtain ⟨v1, hv⟩ := Option.isSome_iff_exists.mp hp
      exact mem_of_alookup_some hv
    rw [Finset.insert_eq_self.mpr (List.mem_toFinset.mpr hk)]
  · rw [if_neg hp]
    ext x
    simp [or_comm]

theorem buildTbl_nodupKeys (ns : String) :
    ∀ (pages : List Page) (tbl : List (String × Page)),
      (tbl.map Prod.fst).Nodup → ((buildTbl ns pages tbl).map Prod.fst).Nodup := by
  intro pages
  induction pages with
  | nil => intro tbl h; exact h
  | cons pg rest ih =>
    intro tbl h
    show ((buildTbl ns rest _).map Prod.fst).Nodup
    apply ih
    dsimp only
    by_cases hm : tmatch ns pg
    · rw [if_pos hm]
      exact insertA_nodupKeys tbl _ pg h
    · rw [if_neg hm]
      exact h

theorem buildTbl_keys_toFinset (ns : String) :
    ∀ (pages : List Page) (tbl : List (String × Page)),
      ((buildTbl ns pages tbl).map Prod.fst).toFinset =
        (tbl.map Prod.fst).toFinset ∪ (matchNames ns pages).toFinset := by
  intro pages
  induction pages with
  | nil =>
    intro tbl
    rw [show buildTbl ns [] tbl = tbl from rfl, show matchNames ns [] = [] from rfl]
    simp
  | cons pg rest ih =>
    intro tbl
    show ((buildTbl ns rest _).map Prod.fst).toFinset = _
    rw [ih]
    dsimp only
    by_cases hm : tmatch ns pg
    · rw [if_pos hm, insertA_keys_toFinset]
      have hnames : matchNames ns (pg :: rest) = localName ns pg :: matchNames ns rest := by
        unfold matchNames
        rw [List.filterMap_cons, if_pos hm]
      rw [hnames, List.toFinset_cons]
      ext x
      simp

    · rw [if_neg hm]
      have hnames : matchNames ns (pg :: rest) = matchNames ns rest := by
        unfold matchNames
        rw [List.filterMap_cons, if_neg hm]
      rw [hnames]

theorem buildTbl_length (ns : String) (pages : List Page) :
    (buildTbl ns pages []).length = (matchNames ns pages).dedup.length := by
  have hnodup : ((buildTbl ns pages []).map Prod.fst).Nodup :=
    buildTbl_nodupKeys ns pages [] (by simp)
  have hlen : (buildTbl ns pages []).length =
      ((buildTbl ns pages []).map Prod.fst).length := by
    rw [List.length_map]
  rw [hlen, ← List.toFinset_card_of_nodup hnodup, buildTbl_keys_toFinset]
  simp [List.card_toFinset]

/-! ### Concrete fixtures for the claim instances -/

/-- A `siteinfo` fixture with the standard template and module
namespace entries. -/
def siFixture : SiteInfo :=
  ⟨"fiwiki", "https://fi.wikipedia.org/wiki/",
   [("10", ⟨"first-letter", "Template"⟩), ("828", ⟨"case-sensitive", "Module"⟩)]⟩

/-- The empty resolver state at the start of a filter run. -/
def emptyState : RState := ⟨[], []⟩

/-- A template whose body invokes first an unknown template `X` and
then a blocklist-matching one. -/
def tblTwoChildren : List (String × Page) :=
  [("A", ⟨"Template:A", none, "", ["X", "Infobox b"]⟩)]

/-- A template with an empty (or unparseable) body: no invocations. -/
def tblEmptyBody : List (String × Page) :=
  [("A", ⟨"Template:A", none, "", []⟩)]

/-- Mutual reference cycle: `Aaa` invokes `Bbb` and `Bbb` invokes `Aaa`. -/
def tblCycleAB : List (String × Page) :=
  [("Aaa", ⟨"Template:Aaa", none, "", ["Bbb"]⟩),
   ("Bbb", ⟨"Template:Bbb", none, "", ["Aaa"]⟩)]

/-- The state after resolving `Aaa` against `tblCycleAB`. -/
def stCycleAB : RState := ⟨[("Bbb", some false), ("Aaa", some false)], []⟩

/-- Minimal self-cycle: `Ccc` invokes itself. -/
def tblSelf : List (String × Page) :=
  [("Ccc", ⟨"Template:Ccc", none, "", ["Ccc"]⟩)]

/-- A template page whose stripped title is not normalization-invariant. -/
def pgFoo : Page := ⟨"Template:foo", none, "", []⟩

/-- Two template pages sharing the local name `X`. -/
def pgX1 : Page := ⟨"Template:X", none, "first", []⟩

/-- Second page with local name `X`, later in stream order. -/
def pgX2 : Page := ⟨"Template:X", none, "second", []⟩

/-! ### Claim theorems -/

/-- C1: the claim says that when the first top-level invocation of a
table entry's body does not resolve true, every remaining invocation is
still examined and the result is true when any of them resolves true.
The code disagrees: `return False` sits inside the `for` loop of
`_is_filtered`, so only the first invocation is ever examined.  On
`tblTwoChildren`, template `A` invokes `X` (unknown, resolves false)
and then `Infobox b` (blocklist-filtered, resolves true), yet
`is_filtered` returns `False` for `A`, contradicting the claim. -/
theorem c1_first_invocation_only :
    is_filtered siFixture tblTwoChildren "A" emptyState =
      .ok (some false, ⟨[("X", some false), ("A", some false)], []⟩) ∧
    is_filtered_by_name siFixture "Infobox b" = true ∧
    normalize_template_name "Infobox b" = some "Infobox b" ∧
    is_filtered siFixture tblTwoChildren "Infobox b" emptyState =
      .ok (some true, ⟨[("Infobox b", some true)], []⟩) := by
  refine ⟨by decide, by decide, by decide, by decide⟩

/-- C2: the claim says a template whose parsed body has no invocations
resolves to the boolean `False` and that `False` is memoized.  The code
disagrees: the `for` loop of `_is_filtered` has no iterations, the
function falls off its end returning `None`, and `is_filtered` memoizes
that `None` in the cache.  Evaluated on `tblEmptyBody`. -/
theorem c2_empty_body_returns_none :
    is_filtered siFixture tblEmptyBody "A" emptyState =
      .ok (none, ⟨[("A", none)], []⟩) ∧
    lookupCache [("A", (none : Option Bool))] "A" = some none := by
  refine ⟨by decide, by decide⟩

/-- C3 counterexample: the dump page titled `Template:foo` produces the
table key `foo`, which is not a fixed point of
`normalize_template_name` (its normal form is `Foo`): keys are not
normalized, contradicting the claim as stated. -/
theorem c3_counterexample :
    load_templates siFixture [pgFoo] = .ok [("foo", pgFoo)] ∧
    normalize_template_name "foo" = some "Foo" ∧
    ("Foo" : String) ≠ "foo" := by
  refine ⟨by decide, by decide, by decide⟩

/-- C3 (amended): a key is present in the Template Table exactly when
it is the title of some dump page in the template namespace with the
namespace marker stripped; no normalization is applied to keys. -/
theorem c3_keys_are_stripped_titles (si : SiteInfo) (ns : String)
    (pages : List Page) (tbl : List (String × Page)) (k : String)
    (hns : si.template_namespace_name = some ns)
    (hload : load_templates si pages = .ok tbl) :
    (alookup tbl k).isSome = true ↔
      ∃ pg ∈ pages, pyStartsWith pg.title (ns ++ ":") = true ∧
        pyDropChars pg.title (ns ++ ":").data.length = k := by
  unfold load_templates at hload
  rw [load_templates_from_ok hns pages []] at hload
  have htbl : tbl = buildTbl ns pages [] := by
    cases hload
    rfl
  subst htbl
  rw [alookup_buildTbl]
  rw [show alookup ([] : List (String × Page)) k = none from rfl]
  rw [show (lastMatch ns k pages).or none = lastMatch ns k pages from by
    cases lastMatch ns k pages <;> rfl]
  rw [lastMatch_isSome_iff]
  unfold tmatch localName
  exact Iff.rfl

/-- C3 witness instance for the amended statement. -/
theorem c3_keys_witness :
    ∃ pg ∈ [pgFoo], pyStartsWith pg.title ("Template" ++ ":") = true ∧
      pyDropChars pg.title ("Template" ++ ":").data.length = "foo" :=
  (c3_keys_are_stripped_titles siFixture "Template" [pgFoo] [("foo", pgFoo)]
    "foo" (by decide) (by decide)).mp (by decide)

/-- C4: on the mutual cycle `Aaa ↔ Bbb` with neither name blocklisted
nor magic, both resolutions terminate and return `False`; the minimal
self-cycle `Ccc → Ccc` likewise terminates on first touch and resolves
to `False`.  The last two conjuncts show termination: any fuel at least
`BIGF` computes the same result, so the recursion depth is bounded. -/
theorem c4_cycles_terminate_false :
    is_filtered siFixture tblCycleAB "Aaa" emptyState = .ok (some false, stCycleAB) ∧
    is_filtered siFixture tblCycleAB "Bbb" stCycleAB = .ok (some false, stCycleAB) ∧
    is_filtered siFixture tblSelf "Ccc" emptyState =
      .ok (some false, ⟨[("Ccc", some false)], []⟩) ∧
    (∀ f : Nat, BIGF tblCycleAB ≤ f →
      isFilteredF siFixture tblCycleAB f "Aaa" emptyState =
        is_filtered siFixture tblCycleAB "Aaa" emptyState) ∧
    (∀ f : Nat, BIGF tblSelf ≤ f →
      isFilteredF siFixture tblSelf f "Ccc" emptyState =
        is_filtered siFixture tblSelf "Ccc" emptyState) := by
  refine ⟨by decide, by decide, by decide, ?_, ?_⟩
  · intro f hf
    exact isFilteredF_ge_BIGF siFixture tblCycleAB "Aaa" emptyState hf
  · intro f hf
    exact isFilteredF_ge_BIGF siFixture tblSelf "Ccc" emptyState hf

/-- C4 witness instance: the fuel-independence conjuncts at concrete
fuels above the bound. -/
theorem c4_cycles_witness :
    isFilteredF siFixture tblCycleAB 7 "Aaa" emptyState =
      is_filtered siFixture tblCycleAB "Aaa" emptyState ∧
    isFilteredF siFixture tblSelf 5 "Ccc" emptyState =
      is_filtered siFixture tblSelf "Ccc" emptyState :=
  ⟨c4_cycles_terminate_false.2.2.2.1 7 (by decide),
   c4_cycles_terminate_false.2.2.2.2 5 (by decide)⟩

/-- C5: a request for a name that is currently in the Active Set and
not yet cached returns the indeterminate `none` (distinct from
`some true` and `some false` by construction) with the state unchanged:
nothing is memoized, so a later acyclic resolution computes normally.
And every completed call restores the active set it started from, so
the requested name's active entry is removed on completion regardless
of outcome. -/
theorem c5_cycle_guard_scoped :
    (∀ (si : SiteInfo) (tmpl : List (String × Page)) (t : String) (st : RState),
      t ∈ st.active → lookupCache st.cache t = none →
      is_filtered si tmpl t st = .ok (none, st)) ∧
    (∀ (si : SiteInfo) (tmpl : List (String × Page)) (t : String) (st : RState)
       (v : Option Bool) (st1 : RState),
      is_filtered si tmpl t st = .ok (v, st1) → st1.active = st.active) := by
  constructor
  · intro si tmpl t st ha hc
    rw [is_filtered_eq, hc]
    dsimp only
    rw [if_pos ha]
  · intro si tmpl t st v st1 h
    exact is_filtered_active si tmpl t st v st1 h

/-- C5 witness instance. -/
theorem c5_cycle_guard_witness :
    is_filtered siFixture [] "A" ⟨[], ["A"]⟩ = .ok (none, ⟨[], ["A"]⟩) ∧
    (⟨[("PAGENAME", some false)], []⟩ : RState).active = emptyState.active :=
  ⟨c5_cycle_guard_scoped.1 siFixture [] "A" ⟨[], ["A"]⟩ (by decide) (by decide),
   c5_cycle_guard_scoped.2 siFixture [] "PAGENAME" emptyState (some false)
     ⟨[("PAGENAME", some false)], []⟩ (by decide)⟩

/-- C7: normalization is idempotent.  Composition is `Option.bind`, so
the statement also covers the whitespace-only inputs on which Python
raises: the exception propagates identically on both sides. -/
theorem c7_normalize_idempotent (x : String) :
    (normalize_template_name x).bind normalize_template_name =
      normalize_template_name x := by
  cases hx : normalize_template_name x with
  | none => rfl
  | some y =>
    show normalize_template_name y = some y
    exact normalize_template_name_idem hx

/-- C8: a name that normalizes to a non-blocklisted magic word or
parser function resolves to `False` without touching the template
table: the final state is the input state plus only the memoized
`False` for that name.  In particular a page body containing only the
`PAGENAME` invocation keeps it untouched. -/
theorem c8_magic_words_never_filtered :
    (∀ (si : SiteInfo) (tmpl : List (String × Page)) (n t : String) (st : RState),
      normalize_template_name n = some t →
      is_filtered_by_name si t = false →
      (is_magic_word t || is_parser_function t) = true →
      lookupCache st.cache n = none →
      n ∉ st.active →
      is_filtered si tmpl n st =
        .ok (some false, ⟨insertCache st.cache n (some false), st.active⟩)) ∧
    (∀ (si : SiteInfo) (tmpl : List (String × Page)),
      remove_filtered_templates si tmpl ["PAGENAME"] emptyState =
        .ok (["PAGENAME"], ⟨[("PAGENAME", some false)], []⟩)) := by
  have part1 : ∀ (si : SiteInfo) (tmpl : List (String × Page)) (n t : String)
      (st : RState),
      normalize_template_name n = some t →
      is_filtered_by_name si t = false →
      (is_magic_word t || is_parser_function t) = true →
      lookupCache st.cache n = none →
      n ∉ st.active →
      is_filtered si tmpl n st =
        .ok (some false, ⟨insertCache st.cache n (some false), st.active⟩) := by
    intro si tmpl n t st hn hpre hmw hc ha
    rw [is_filtered_eq, hc]
    dsimp only
    rw [if_neg ha]
    unfold _is_filtered
    rw [hn]
    dsimp only
    rw [if_neg (by simp [hpre]), if_pos hmw]
    unfold memoize
    dsimp only
    rw [List.erase_cons_head]
  refine ⟨part1, ?_⟩
  intro si tmpl
  unfold remove_filtered_templates
  rw [show normalize_template_name "PAGENAME" = some "PAGENAME" from by decide]
  dsimp only
  rw [part1 si tmpl "PAGENAME" "PAGENAME" emptyState (by decide) rfl
    (by decide) rfl (by decide)]
  rfl

/-- C8 witness instance. -/
theorem c8_magic_words_witness :
    is_filtered siFixture [] "PAGENAME" emptyState =
      .ok (some false, ⟨[("PAGENAME", some false)], []⟩) ∧
    remove_filtered_templates siFixture [] ["PAGENAME"] emptyState =
      .ok (["PAGENAME"], ⟨[("PAGENAME", some false)], []⟩) :=
  ⟨c8_magic_words_never_filtered.1 siFixture [] "PAGENAME" "PAGENAME" emptyState
     (by decide) (by decide) (by decide) rfl (by decide),
   c8_magic_words_never_filtered.2 siFixture []⟩

/-- C9: `normalize_template_name` fails (Python: `IndexError`) exactly
on names that are empty or all whitespace; consequently both the
removal pass and the resolver abort the run (`exc`) on such an
invocation name instead of recovering. -/
theorem c9_whitespace_name_aborts :
    (∀ s : String,
      normalize_template_name s = none ↔ ∀ c ∈ s.data, c.isWhitespace = true) ∧
    (∀ (si : SiteInfo) (tmpl : List (String × Page)) (t : String)
       (rest : List String) (st : RState),
      normalize_template_name t = none →
      remove_filtered_templates si tmpl (t :: rest) st = .exc) ∧
    (∀ (si : SiteInfo) (tmpl : List (String × Page)) (t : String) (st : RState),
      normalize_template_name t = none →
      lookupCache st.cache t = none → t ∉ st.active →
      is_filtered si tmpl t st = .exc) := by
  refine ⟨?_, ?_, ?_⟩
  · intro s
    unfold normalize_template_name
    constructor
    · intro h
      cases hs : stripChars s.data with
      | nil => exact stripChars_eq_nil_iff.mp hs
      | cons c cs =>
        rw [hs] at h
        exact absurd h (by simp)
    · intro h
      rw [stripChars_eq_nil_iff.mpr h]
  · intro si tmpl t rest st hn
    unfold remove_filtered_templates
    rw [hn]
  · intro si tmpl t st hn hc ha
    rw [is_filtered_eq, hc]
    dsimp only
    rw [if_neg ha]
    unfold _is_filtered
    rw [hn]
    rfl

/-- C9 witness instance. -/
theorem c9_whitespace_witness :
    (∀ c ∈ ("  " : String).data, c.isWhitespace = true) ∧
    remove_filtered_templates siFixture [] ["  "] emptyState = .exc ∧
    is_filtered siFixture [] "  " emptyState = .exc :=
  ⟨(c9_whitespace_name_aborts.1 "  ").mp (by decide),
   c9_whitespace_name_aborts.2.1 siFixture [] "  " [] emptyState (by decide),
   c9_whitespace_name_aborts.2.2 siFixture [] "  " emptyState (by decide)
     (by decide) (by decide)⟩

/-- C10: when several template-namespace pages share a local name, the
Template Table maps that name to the record of the last such page in
stream order, and the table size is the number of distinct local
names. -/
theorem c10_last_page_wins (si : SiteInfo) (ns : String) (pages : List Page)
    (tbl : List (String × Page))
    (hns : si.template_namespace_name = some ns)
    (hload : load_templates si pages = .ok tbl) :
    (∀ k, alookup tbl k = lastMatch ns k pages) ∧
    tbl.length = (matchNames ns pages).dedup.length := by
  unfold load_templates at hload
  rw [load_templates_from_ok hns pages []] at hload
  have htbl : tbl = buildTbl ns pages [] := by
    cases hload
    rfl
  subst htbl
  constructor
  · intro k
    rw [alookup_buildTbl]
    rw [show alookup ([] : List (String × Page)) k = none from rfl]
    cases lastMatch ns k pages <;> rfl
  · exact buildTbl_length ns pages

/-- C10 witness instance: two pages both titled `Template:X`; the
table holds the second record under the single key `X`. -/
theorem c10_last_page_witness :
    alookup [("X", pgX2)] "X" = lastMatch "Template" "X" [pgX1, pgX2] ∧
    ([("X", pgX2)] : List (String × Page)).length =
      (matchNames "Template" [pgX1, pgX2]).dedup.length :=
  ⟨(c10_last_page_wins siFixture "Template" [pgX1, pgX2] [("X", pgX2)]
      (by decide) (by decide)).1 "X",
   (c10_last_page_wins siFixture "Template" [pgX1, pgX2] [("X", pgX2)]
      (by decide) (by decide)).2⟩

/-! ### History independence of the memoized decisions (claim C6)

The development below shows that every top-level `is_filtered` call made
from a reachable state returns the canonical cache-free value `val` of
the requested name, so the memoized decision is a function of the
template graph alone, independent of which pages (and in which order)
triggered earlier resolutions. -/

/-- The conditions under which the resolution of `a` descends into the
normalized name `t` of the first invocation of its body. -/
def descLink (si : SiteInfo) (tmpl : List (String × Page)) (a t : String) : Prop :=
  ∃ (a1 : String) (page : Page) (child : String) (rest : List String),
    normalize_template_name a = some a1 ∧
    is_filtered_by_name si a1 = false ∧
    (is_magic_word a1 || is_parser_function a1) = false ∧
    alookup tmpl a1 = some page ∧
    page.invocations = child :: rest ∧
    normalize_template_name child = some t

/-- The shape of the active set during a resolution of `t`: a stack of
in-progress names, each of which descended into the next one pushed,
the most recent of which descended into `t`. -/
inductive ChainInto (si : SiteInfo) (tmpl : List (String × Page)) :
    List String → String → Prop where
  | nil : ∀ t, ChainInto si tmpl [] t
  | cons : ∀ a rest t, descLink si tmpl a t → ChainInto si tmpl rest a →
      ChainInto si tmpl (a :: rest) t

/-- A descent path: consecutive elements are linked and the last
element descends into the target. -/
inductive DownChain (si : SiteInfo) (tmpl : List (String × Page)) :
    List String → String → Prop where
  | single : ∀ a tgt, descLink si tmpl a tgt → DownChain si tmpl [a] tgt
  | cons : ∀ a b rest tgt, descLink si tmpl a b →
      DownChain si tmpl (b :: rest) tgt → DownChain si tmpl (a :: b :: rest) tgt

theorem DownChain.append_one {si : SiteInfo} {tmpl : List (String × Page)}
    {s : List String} {b t : String}
    (h : DownChain si tmpl s b) (hb : descLink si tmpl b t) :
    DownChain si tmpl (s ++ [b]) t := by
  revert hb
  induction h with
  | single a tgt ha =>
    intro hb
    exact DownChain.cons a tgt [] t ha (DownChain.single tgt t hb)
  | cons a c rest tgt hac hrest ih =>
    intro hb
    exact DownChain.cons a c (rest ++ [tgt]) t hac (ih hb)

/-- From the chain shape of the active set, every active name starts a
descent path that ends at the current resolution target. -/
theorem ChainInto.extract {si : SiteInfo} {tmpl : List (String × Page)} :
    ∀ {L : List String} {t : String}, ChainInto si tmpl L t → L.Nodup →
      ∀ {c : String}, c ∈ L →
      ∃ seg : List String, DownChain si tmpl seg t ∧ seg.head? = some c ∧
        (∀ x ∈ seg, x ∈ L) ∧ seg.Nodup := by
  intro L t hch
  induction hch with
  | nil t => intro _ c hc; simp at hc
  | cons a rest t ha hrest ih =>
    intro hnd c hc
    rcases List.mem_cons.mp hc with rfl | hc2
    · exact ⟨[c], DownChain.single c t ha, rfl, by simp, by simp⟩
    · obtain ⟨seg, hdc, hhead, hsub, hsnd⟩ := ih (List.Nodup.of_cons hnd) hc2
    
      refine ⟨seg ++ [a], DownChain.append_one hdc ha, ?_, ?_, ?_⟩
      · rw [List.head?_append]
        rw [hhead]
        rfl
      · intro x hx
        rcases List.mem_append.mp hx with hx1 | hx2
        · exact List.mem_cons_of_mem a (hsub x hx1)
        · rw [List.mem_singleton.mp hx2]
          exact List.mem_cons_self a rest
      · rw [List.nodup_append]
        refine ⟨hsnd, by simp, ?_⟩
        intro x hx1 hx2
        rw [List.mem_singleton.mp hx2] at hx1
        exact (List.nodup_cons.mp hnd).1 (hsub _ hx1)

theorem pvalF_visited (si : SiteInfo) (tmpl : List (String × Page))
    (f : Nat) (t : String) (vis : List String) (h : t ∈ vis) :
    pvalF si tmpl f t vis = .ok none := by
  cases f with
  | zero => rfl
  | succ f =>
    rw [pvalF]
    rw [if_pos h]

theorem pval_visited (si : SiteInfo) (tmpl : List (String × Page))
    (t : String) (vis : List String) (h : t ∈ vis) :
    pval si tmpl t vis = .ok none := by
  rw [pval_eq, if_pos h]

/-- Unfolding of `pval` in the body-descent case. -/
theorem pval_unfold_child (si : SiteInfo) (tmpl : List (String × Page))
    {t t1 child cname : String} {page : Page} {rest : List String}
    (vis : List String) (hv : t ∉ vis)
    (hn : normalize_template_name t = some t1)
    (hpre : is_filtered_by_name si t1 = false)
    (hmw : (is_magic_word t1 || is_parser_function t1) = false)
    (hlook : alookup tmpl t1 = some page)
    (hinv : page.invocations = child :: rest)
    (hcn : normalize_template_name child = some cname) :
    pval si tmpl t vis =
      match pval si tmpl cname (t :: vis) with
      | .exc => .exc
      | .ok r => if r = some true then .ok (some true) else .ok (some false) := by
  rw [pval_eq, if_neg hv, hn]
  dsimp only
  rw [if_neg (by simp [hpre]), if_neg (by simp [hmw]), hlook]
  dsimp only
  rw [hinv]
  dsimp only
  rw [hcn]

/-- A descent path whose target is already on the visited list
evaluates to `False`: the final revisit yields the indeterminate
`none`, the node above it therefore returns `False`, and `False`
propagates up the path. -/
theorem DownChain.chase {si : SiteInfo} {tmpl : List (String × Page)} :
    ∀ {seg : List String} {tgt : String}, DownChain si tmpl seg tgt →
    ∀ (W : List String), tgt ∈ W → (∀ x ∈ seg, x ∉ W) → seg.Nodup →
    ∀ {c : String}, seg.head? = some c →
    pval si tmpl c W = .ok (some false) := by
  intro seg tgt hdc
  induction hdc with
  | single a t ha =>
    intro W htW hdisj hnd c hhead
    have hca : c = a := by
      simpa using hhead.symm
    subst hca
    obtain ⟨a1, page, child, rest, hn, hpre, hmw, hlook, hinv, hcn⟩ := ha
    rw [pval_unfold_child si tmpl W (hdisj c (by simp)) hn hpre hmw hlook hinv hcn]
    rw [pval_visited si tmpl t (c :: W) (List.mem_cons_of_mem c htW)]
    rfl
  | cons a b rest t hab hrest ih =>
    intro W htW hdisj hnd c hhead
    have hca : c = a := by
      simpa using hhead.symm
    subst hca
    obtain ⟨a1, page, child, rest1, hn, hpre, hmw, hlook, hinv, hcn⟩ := hab
    rw [pval_unfold_child si tmpl W (hdisj c (by simp)) hn hpre hmw hlook hinv hcn]
    have hrec : pval si tmpl b (c :: W) = .ok (some false) := by
      apply ih (c :: W) (List.mem_cons_of_mem c htW) ?_ (List.Nodup.of_cons hnd) rfl
      intro x hx
      rw [List.mem_cons]
      rintro (rfl | hxW)
      · exact (List.nodup_cons.mp hnd).1 hx
      · exact hdisj x (List.mem_cons_of_mem c hx) hxW
    rw [hrec]
    rfl

/-- Extending the visited list with a name `t` that descends into the
root of the current descent does not change the result: if the descent
from `t0` reaches `t`, the unextended evaluation continues through `t`
into `c0`, which is already on its path, and both evaluations settle on
`False` at that point. -/
theorem pval_visited_ext (si : SiteInfo) (tmpl : List (String × Page))
    (t c0 : String) (hlink : descLink si tmpl t c0) :
    ∀ (f : Nat) (t0 : String) (V : List String),
      boundMu tmpl t0 (V ++ [t]) < f →
      t0 ≠ t → t ∉ V → c0 ∈ t0 :: V →
      pvalF si tmpl f t0 (V ++ [t]) = pval si tmpl t0 V := by
  intro f
  induction f with
  | zero =>
    intro t0 V hb
    omega
  | succ f ih =>
    intro t0 V hb ht0 htV hc0
    by_cases hv : t0 ∈ V
    · rw [pvalF_visited si tmpl (f + 1) t0 (V ++ [t]) (List.mem_append_left _ hv),
          pval_visited si tmpl t0 V hv]
    · have h1 : t0 ∉ V ++ [t] := by
        intro hmem
        rcases List.mem_append.mp hmem with h2 | h2
        · exact hv h2
        · exact ht0 (List.mem_singleton.mp h2)
      have htV2 : t ∉ t0 :: V := by
        rw [List.mem_cons]
        rintro (rfl | hmem)
        · exact ht0 rfl
        · exact htV hmem
      conv_lhs => rw [pvalF]
      rw [pval_eq]
      rw [if_neg h1, if_neg hv]
      cases hn : normalize_template_name t0 with
      | none => rfl
      | some t1 =>
        dsimp only
        by_cases hpre : is_filtered_by_name si t1
        · rw [if_pos hpre, if_pos hpre]
        · rw [if_neg hpre, if_neg hpre]
          by_cases hmw : (is_magic_word t1 || is_parser_function t1) = true
          · rw [if_pos hmw, if_pos hmw]
          · rw [if_neg hmw, if_neg hmw]
            cases hlook : alookup tmpl t1 with
            | none => rfl
            | some page =>
              dsimp only
              cases hinv : page.invocations with
              | nil => rfl
              | cons child rest =>
                dsimp only
                cases hcn : normalize_template_name child with
                | none => rfl
                | some cname =>
                  dsimp only
                  by_cases hct : cname = t
                  · subst hct
                    rw [pvalF_visited si tmpl f cname (t0 :: (V ++ [cname]))
                      (List.mem_cons_of_mem t0 (List.mem_append_right V (by simp)))]
                    obtain ⟨a1, pg2, ch2, rs2, hn2, hpre2, hmw2, hlook2, hinv2, hcn2⟩ :=
                      hlink
                    rw [pval_unfold_child si tmpl (t0 :: V) htV2 hn2 hpre2 hmw2
                      hlook2 hinv2 hcn2]
                    rw [pval_visited si tmpl c0 (cname :: t0 :: V)
                      (List.mem_cons_of_mem cname hc0)]
                    rfl
                  · have hstep := boundMu_step hn hlook h1 hcn
                    have hbc : boundMu tmpl cname (t0 :: (V ++ [t])) < f := by
                      omega
                    rw [show t0 :: (V ++ [t]) = (t0 :: V) ++ [t] from rfl]
                    rw [ih cname (t0 :: V) hbc hct htV2
                      (List.mem_cons_of_mem cname hc0)]

theorem val_of_by_name (si : SiteInfo) (tmpl : List (String × Page))
    {t t1 : String} (hn : normalize_template_name t = some t1)
    (hpre : is_filtered_by_name si t1 = true) :
    val si tmpl t = .ok (some true) := by
  unfold val
  rw [pval_eq, if_neg (List.not_mem_nil t), hn]
  dsimp only
  rw [if_pos hpre]

theorem val_of_magic (si : SiteInfo) (tmpl : List (String × Page))
    {t t1 : String} (hn : normalize_template_name t = some t1)
    (hpre : is_filtered_by_name si t1 = false)
    (hmw : (is_magic_word t1 || is_parser_function t1) = true) :
    val si tmpl t = .ok (some false) := by
  unfold val
  rw [pval_eq, if_neg (List.not_mem_nil t), hn]
  dsimp only
  rw [if_neg (by simp [hpre]), if_pos hmw]

theorem val_of_missing (si : SiteInfo) (tmpl : List (String × Page))
    {t t1 : String} (hn : normalize_template_name t = some t1)
    (hpre : is_filtered_by_name si t1 = false)
    (hmw : (is_magic_word t1 || is_parser_function t1) = false)
    (hlook : alookup tmpl t1 = none) :
    val si tmpl t = .ok (some false) := by
  unfold val
  rw [pval_eq, if_neg (List.not_mem_nil t), hn]
  dsimp only
  rw [if_neg (by simp [hpre]), if_neg (by simp [hmw]), hlook]

theorem val_of_empty (si : SiteInfo) (tmpl : List (String × Page))
    {t t1 : String} {page : Page} (hn : normalize_template_name t = some t1)
    (hpre : is_filtered_by_name si t1 = false)
    (hmw : (is_magic_word t1 || is_parser_function t1) = false)
    (hlook : alookup tmpl t1 = some page)
    (hinv : page.invocations = []) :
    val si tmpl t = .ok none := by
  unfold val
  rw [pval_eq, if_neg (List.not_mem_nil t), hn]
  dsimp only
  rw [if_neg (by simp [hpre]), if_neg (by simp [hmw]), hlook]
  dsimp only
  rw [hinv]

/-- A well-formed mid-run resolver state: every cached decision is the
canonical value of its name, no active name is cached, and the active
names are distinct. -/
def GoodSt (si : SiteInfo) (tmpl : List (String × Page)) (st : RState) : Prop :=
  (∀ (k : String) (v : Option Bool),
      lookupCache st.cache k = some v → val si tmpl k = .ok v) ∧
  (∀ a ∈ st.active, lookupCache st.cache a = none) ∧
  st.active.Nodup

theorem isFilteredF_sim (f : Nat) :
    ∀ (si : SiteInfo) (tmpl : List (String × Page)) (t : String) (st : RState)
      (v : Option Bool) (st1 : RState),
      boundMu tmpl t st.active < f →
      GoodSt si tmpl st →
      ChainInto si tmpl st.active t →
      isFilteredF si tmpl f t st = .ok (v, st1) →
      GoodSt si tmpl st1 ∧ st1.active = st.active ∧
      (t ∉ st.active → val si tmpl t = .ok v) ∧
      (t ∈ st.active → v = none ∧ st1 = st) := by
  induction f with
  | zero =>
    intro si tmpl t st v st1 hb
    omega
  | succ f ih =>
    intro si tmpl t st v st1 hb hg hch hres
    obtain ⟨hcoh, hdisj, hnd⟩ := hg
    rw [isFilteredF] at hres
    revert hres
    cases hc : lookupCache st.cache t with
    | some w =>
      intro hres
      cases hres
      refine ⟨⟨hcoh, hdisj, hnd⟩, rfl, ?_, ?_⟩
      · intro ht
        exact hcoh t _ hc
      · intro ht
        exact absurd hc (by rw [hdisj t ht]; simp)
    | none =>
      dsimp only
      by_cases ha : t ∈ st.active
      · rw [if_pos ha]
        intro hres
        cases hres
        exact ⟨⟨hcoh, hdisj, hnd⟩, rfl, fun ht => absurd ha ht, fun _ => ⟨rfl, rfl⟩⟩
      · rw [if_neg ha]
        cases hn : normalize_template_name t with
        | none =>
          intro hres
          cases hres
        | some t1 =>
          dsimp only
          by_cases hpre : is_filtered_by_name si t1
          · rw [if_pos hpre]
            intro hres
            unfold memoize at hres
            cases hres
            have heq : (t :: st.active).erase t = st.active :=
              List.erase_cons_head t st.active
            have hval : val si tmpl t = .ok (some true) :=
              val_of_by_name si tmpl hn hpre
            refine ⟨⟨?_, ?_, ?_⟩, ?_, fun ht => hval, fun ht => absurd ht ha⟩
            · intro k w hk
              rw [show (⟨insertCache st.cache t (some true),
                  (t :: st.active).erase t⟩ : RState).cache =
                  insertCache st.cache t (some true) from rfl,
                lookupCache_insertCache] at hk
              by_cases hkt : k = t
              · rw [if_pos hkt] at hk
                cases hk
                rw [hkt]
                exact hval
              · rw [if_neg hkt] at hk
                exact hcoh k w hk
            · intro a haa
              rw [show (⟨insertCache st.cache t (some true),
                  (t :: st.active).erase t⟩ : RState).active =
                  (t :: st.active).erase t from rfl, heq] at haa
              show lookupCache (insertCache st.cache t (some true)) a = none
              rw [lookupCache_insertCache,
                if_neg (fun hat : a = t => ha (hat ▸ haa)), hdisj a haa]
            · show ((t :: st.active).erase t).Nodup
              rw [heq]
              exact hnd
            · show (t :: st.active).erase t = st.active
              exact heq
          · rw [if_neg hpre]
            have hpreF : is_filtered_by_name si t1 = false :=
              Bool.eq_false_iff.mpr hpre
            by_cases hmw : (is_magic_word t1 || is_parser_function t1) = true
            · rw [if_pos hmw]
              intro hres
              unfold memoize at hres
              cases hres
              have heq : (t :: st.active).erase t = st.active :=
                List.erase_cons_head t st.active
              have hval : val si tmpl t = .ok (some false) :=
                val_of_magic si tmpl hn hpreF hmw
              refine ⟨⟨?_, ?_, ?_⟩, ?_, fun ht => hval, fun ht => absurd ht ha⟩
              · intro k w hk
                rw [show (⟨insertCache st.cache t (some false),
                    (t :: st.active).erase t⟩ : RState).cache =
                    insertCache st.cache t (some false) from rfl,
                  lookupCache_insertCache] at hk
                by_cases hkt : k = t
                · rw [if_pos hkt] at hk
                  cases hk
                  rw [hkt]
                  exact hval
                · rw [if_neg hkt] at hk
                  exact hcoh k w hk
              · intro a haa
                rw [show (⟨insertCache st.cache t (some false),
                    (t :: st.active).erase t⟩ : RState).active =
                    (t :: st.active).erase t from rfl, heq] at haa
                show lookupCache (insertCache st.cache t (some false)) a = none
                rw [lookupCache_insertCache,
                  if_neg (fun hat : a = t => ha (hat ▸ haa)), hdisj a haa]
              · show ((t :: st.active).erase t).Nodup
                rw [heq]
                exact hnd
              · show (t :: st.active).erase t = st.active
                exact heq
            · rw [if_neg hmw]
              have hmwF : (is_magic_word t1 || is_parser_function t1) = false :=
                Bool.eq_false_iff.mpr hmw
              cases hlook : alookup tmpl t1 with
              | none =>
                intro hres
                unfold memoize at hres
                cases hres
                have heq : (t :: st.active).erase t = st.active :=
                  List.erase_cons_head t st.active
                have hval : val si tmpl t = .ok (some false) :=
                  val_of_missing si tmpl hn hpreF hmwF hlook
                refine ⟨⟨?_, ?_, ?_⟩, ?_, fun ht => hval, fun ht => absurd ht ha⟩
                · intro k w hk
                  rw [show (⟨insertCache st.cache t (some false),
                      (t :: st.active).erase t⟩ : RState).cache =
                      insertCache st.cache t (some false) from rfl,
                    lookupCache_insertCache] at hk
                  by_cases hkt : k = t
                  · rw [if_pos hkt] at hk
                    cases hk
                    rw [hkt]
                    exact hval
                  · rw [if_neg hkt] at hk
                    exact hcoh k w hk
                · intro a haa
                  rw [show (⟨insertCache st.cache t (some false),
                      (t :: st.active).erase t⟩ : RState).active =
                      (t :: st.active).erase t from rfl, heq] at haa
                  show lookupCache (insertCache st.cache t (some false)) a = none
                  rw [lookupCache_insertCache,
                    if_neg (fun hat : a = t => ha (hat ▸ haa)), hdisj a haa]
                · show ((t :: st.active).erase t).Nodup
                  rw [heq]
                  exact hnd
                · show (t :: st.active).erase t = st.active
                  exact heq
              | some page =>
                dsimp only
                cases hinv : page.invocations with
                | nil =>
                  intro hres
                  unfold memoize at hres
                  cases hres
                  have heq : (t :: st.active).erase t = st.active :=
                    List.erase_cons_head t st.active
                  have hval : val si tmpl t = .ok none :=
                    val_of_empty si tmpl hn hpreF hmwF hlook hinv
                  refine ⟨⟨?_, ?_, ?_⟩, ?_, fun ht => hval, fun ht => absurd ht ha⟩
                  · intro k w hk
                    rw [show (⟨insertCache st.cache t none,
                        (t :: st.active).erase t⟩ : RState).cache =
                        insertCache st.cache t none from rfl,
                      lookupCache_insertCache] at hk
                    by_cases hkt : k = t
                    · rw [if_pos hkt] at hk
                      cases hk
                      rw [hkt]
                      exact hval
                    · rw [if_neg hkt] at hk
                      exact hcoh k w hk
                  · intro a haa
                    rw [show (⟨insertCache st.cache t none,
                        (t :: st.active).erase t⟩ : RState).active =
                        (t :: st.active).erase t from rfl, heq] at haa
                    show lookupCache (insertCache st.cache t none) a = none
                    rw [lookupCache_insertCache,
                      if_neg (fun hat : a = t => ha (hat ▸ haa)), hdisj a haa]
                  · show ((t :: st.active).erase t).Nodup
                    rw [heq]
                    exact hnd
                  · show (t :: st.active).erase t = st.active
                    exact heq
                | cons child rest =>
                  dsimp only
                  cases hcn : normalize_template_name child with
                  | none =>
                    intro hres
                    cases hres
                  | some cname =>
                    dsimp only
                    have hdl : descLink si tmpl t cname :=
                      ⟨t1, page, child, rest, hn, hpreF, hmwF, hlook, hinv, hcn⟩
                    cases hrec : isFilteredF si tmpl f cname
                        ⟨st.cache, t :: st.active⟩ with
                    | exc =>
                      intro hres
                      cases hres
                    | ok p =>
                      obtain ⟨r, st2⟩ := p
                      dsimp only
                      have hbc : boundMu tmpl cname (t :: st.active) < f := by
                        have hstep := boundMu_step hn hlook ha hcn
                        omega
                      have hg2 : GoodSt si tmpl ⟨st.cache, t :: st.active⟩ := by
                        refine ⟨hcoh, ?_, List.nodup_cons.mpr ⟨ha, hnd⟩⟩
                        intro a haa
                        rcases List.mem_cons.mp haa with rfl | haa2
                        · exact hc
                        · exact hdisj a haa2
                      have hch2 : ChainInto si tmpl (t :: st.active) cname :=
                        ChainInto.cons t st.active cname hdl hch
                      obtain ⟨hg3, hact2, hvnotin, hvin⟩ :=
                        ih si tmpl cname ⟨st.cache, t :: st.active⟩ r st2
                          hbc hg2 hch2 hrec
                      obtain ⟨hcoh3, hdisj3, hnd3⟩ := hg3
                      have hvalchild : val si tmpl t =
                          match pval si tmpl cname [t] with
                          | .exc => .exc
                          | .ok r1 =>
                            if r1 = some true then PyRes.ok (some true)
                            else PyRes.ok (some false) := by
                        unfold val
                        exact pval_unfold_child si tmpl [] (List.not_mem_nil t)
                          hn hpreF hmwF hlook hinv hcn
                      have hvalt : val si tmpl t =
                          (if r = some true then PyRes.ok (some true)
                           else PyRes.ok (some false)) := by
                        by_cases hcm : cname ∈ t :: st.active
                        · obtain ⟨hrnone, -⟩ := hvin hcm
                          subst hrnone
                          rcases List.mem_cons.mp hcm with rfl | hcm2
                          · rw [hvalchild,
                              pval_visited si tmpl cname [cname] (by simp)]
                          · obtain ⟨seg, hdc, hhead, hsub, hsegnd⟩ :=
                              ChainInto.extract hch hnd hcm2
                            have hchase := DownChain.chase hdc [t] (by simp)
                              (fun x hx hxt => ha ((List.mem_singleton.mp hxt) ▸ hsub x hx))
                              hsegnd hhead
                            rw [hvalchild, hchase]
                            rfl
                        · have hcnet : cname ≠ t :=
                            fun he => hcm (he ▸ List.mem_cons_self t st.active)
                          have hext : pval si tmpl cname [t] = val si tmpl cname :=
                            pval_visited_ext si tmpl t cname hdl (BIGF tmpl) cname []
                              (boundMu_lt_BIGF tmpl cname ([] ++ [t])) hcnet
                              (List.not_mem_nil t) (List.mem_singleton.mpr rfl)
                          rw [hvalchild, hext, hvnotin hcm]
                      by_cases hr : r = some true
                      · rw [if_pos hr]
                        intro hres
                        unfold memoize at hres
                        cases hres
                        have heq : st2.active.erase t = st.active := by
                          rw [hact2]
                          exact List.erase_cons_head t st.active
                        have hval : val si tmpl t = .ok (some true) := by
                          rw [hvalt, if_pos hr]
                        refine ⟨⟨?_, ?_, ?_⟩, ?_, fun ht => hval,
                          fun ht => absurd ht ha⟩
                        · intro k w hk
                          rw [show (⟨insertCache st2.cache t (some true),
                              st2.active.erase t⟩ : RState).cache =
                              insertCache st2.cache t (some true) from rfl,
                            lookupCache_insertCache] at hk
                          by_cases hkt : k = t
                          · rw [if_pos hkt] at hk
                            cases hk
                            rw [hkt]
                            exact hval
                          · rw [if_neg hkt] at hk
                            exact hcoh3 k w hk
                        · intro a haa
                          rw [show (⟨insertCache st2.cache t (some true),
                              st2.active.erase t⟩ : RState).active =
                              st2.active.erase t from rfl, heq] at haa
                          show lookupCache (insertCache st2.cache t (some true)) a = none
                          rw [lookupCache_insertCache,
                            if_neg (fun hat : a = t => ha (hat ▸ haa))]
                          apply hdisj3
                          rw [hact2]
                          exact List.mem_cons_of_mem t haa
                        · show (st2.active.erase t).Nodup
                          rw [heq]
                          exact hnd
                        · show st2.active.erase t = st.active
                          exact heq
                      · rw [if_neg hr]
                        intro hres
                        unfold memoize at hres
                        cases hres
                        have heq : st2.active.erase t = st.active := by
                          rw [hact2]
                          exact List.erase_cons_head t st.active
                        have hval : val si tmpl t = .ok (some false) := by
                          rw [hvalt, if_neg hr]
                        refine ⟨⟨?_, ?_, ?_⟩, ?_, fun ht => hval,
                          fun ht => absurd ht ha⟩
                        · intro k w hk
                          rw [show (⟨insertCache st2.cache t (some false),
                              st2.active.erase t⟩ : RState).cache =
                              insertCache st2.cache t (some false) from rfl,
                            lookupCache_insertCache] at hk
                          by_cases hkt : k = t
                          · rw [if_pos hkt] at hk
                            cases hk
                            rw [hkt]
                            exact hval
                          · rw [if_neg hkt] at hk
                            exact hcoh3 k w hk
                        · intro a haa
                          rw [show (⟨insertCache st2.cache t (some false),
                              st2.active.erase t⟩ : RState).active =
                              st2.active.erase t from rfl, heq] at haa
                          show lookupCache (insertCache st2.cache t (some false)) a = none
                          rw [lookupCache_insertCache,
                            if_neg (fun hat : a = t => ha (hat ▸ haa))]
                          apply hdisj3
                          rw [hact2]
                          exact List.mem_cons_of_mem t haa
                        · show (st2.active.erase t).Nodup
                          rw [heq]
                          exact hnd
                        · show st2.active.erase t = st.active
                          exact heq

theorem runHist_good (si : SiteInfo) (tmpl : List (String × Page)) :
    ∀ (hist : List String) (st st1 : RState),
      GoodSt si tmpl st → st.active = [] →
      runHist si tmpl hist st = some st1 →
      GoodSt si tmpl st1 ∧ st1.active = [] := by
  intro hist
  induction hist with
  | nil =>
    intro st st1 hg hact h
    cases h
    exact ⟨hg, hact⟩
  | cons t rest ih =>
    intro st st1 hg hact h
    unfold runHist at h
    revert h
    cases hr : is_filtered si tmpl t st with
    | exc =>
      intro h
      cases h
    | ok p =>
      obtain ⟨v, st2⟩ := p
      intro h
      have hsim := isFilteredF_sim (BIGF tmpl) si tmpl t st v st2
        (boundMu_lt_BIGF tmpl t st.active) hg
        (by rw [hact]; exact ChainInto.nil t) hr
      exact ih st2 st1 hsim.1 (by rw [hsim.2.1, hact]) h

/-- C6: every top-level `is_filtered` call made after any sequence of
prior top-level calls in the same run returns the canonical cache-free
value `val` of the requested name, a function of the template graph
alone.  Hence repeated calls for the same name return the same decision
after the first one (first conjunct applied twice), and the memoized
decision is identical no matter which page/history triggered the first
resolution (second conjunct). -/
theorem c6_memoization_consistent (si : SiteInfo) (tmpl : List (String × Page)) :
    (∀ (hist : List String) (t : String) (st1 st2 : RState) (v : Option Bool),
      runHist si tmpl hist emptyState = some st1 →
      is_filtered si tmpl t st1 = .ok (v, st2) →
      val si tmpl t = .ok v) ∧
    (∀ (hist1 hist2 : List String) (t : String) (st1 st2 st3 st4 : RState)
       (v1 v2 : Option Bool),
      runHist si tmpl hist1 emptyState = some st1 →
      is_filtered si tmpl t st1 = .ok (v1, st2) →
      runHist si tmpl hist2 emptyState = some st3 →
      is_filtered si tmpl t st3 = .ok (v2, st4) →
      v1 = v2) := by
  have hg0 : GoodSt si tmpl emptyState := by
    refine ⟨?_, ?_, ?_⟩
    · intro k v hk
      exact absurd hk (by simp [emptyState, lookupCache, alookup])
    · intro a ha
      exact absurd ha (by simp [emptyState])
    · simp [emptyState]
  have part1 : ∀ (hist : List String) (t : String) (st1 st2 : RState)
      (v : Option Bool),
      runHist si tmpl hist emptyState = some st1 →
      is_filtered si tmpl t st1 = .ok (v, st2) →
      val si tmpl t = .ok v := by
    intro hist t st1 st2 v hrun hres
    obtain ⟨hg1, hact1⟩ := runHist_good si tmpl hist emptyState st1 hg0 rfl hrun
    have hsim := isFilteredF_sim (BIGF tmpl) si tmpl t st1 v st2
      (boundMu_lt_BIGF tmpl t st1.active) hg1
      (by rw [hact1]; exact ChainInto.nil t) hres
    exact hsim.2.2.1 (by rw [hact1]; exact List.not_mem_nil t)
  refine ⟨part1, ?_⟩
  intro hist1 hist2 t st1 st2 st3 st4 v1 v2 hrun1 hres1 hrun2 hres2
  have h1 := part1 hist1 t st1 st2 v1 hrun1 hres1
  have h2 := part1 hist2 t st3 st4 v2 hrun2 hres2
  rw [h1] at h2
  cases h2
  rfl

/-- C6 witness instance: against the empty table, the name `Q` resolves
to `False` in any history; shown for the empty history and the history
that already resolved `Q` once. -/
theorem c6_memoization_witness :
    val siFixture [] "Q" = PyRes.ok (some false) ∧
    (some false : Option Bool) = some false :=
  ⟨(c6_memoization_consistent siFixture []).1 [] "Q" emptyState
      ⟨[("Q", some false)], []⟩ (some false) rfl (by decide),
   (c6_memoization_consistent siFixture []).2 [] ["Q"] "Q" emptyState
      ⟨[("Q", some false)], []⟩ ⟨[("Q", some false)], []⟩
      ⟨[("Q", some false)], []⟩ (some false) (some false)
      rfl (by decide) (by decide) (by decide)⟩
